import Mathlib

/-!
Verification of the RetentionAI-Pro recommendation-selection engine
(src/app.py, src/train_engine.py), shallowly embedded in Lean 4.

Modelling conventions:
* Python floats are modelled as rationals (`ℚ`); the numeric tolerance
  `0.001` is the rational `1/1000`.
* A customer record / counterfactual row is a value lookup `String → ℚ`
  together with the explicit list of its columns (pandas iterates
  `original.columns`); `calculate_cost` receives the column list and the
  two lookups.
* The f-string "col: old -> new" description appended to `changes` is kept
  as a structured `FieldChange` record (field name, old value, new value);
  the claims only inspect which fields occur in the list.
* The single Python loop at app.py:137-152 both accumulates `report_data`
  and tracks the running minimum (`best_opt`, `lowest_cost`); it is split
  here into `bestAux`/`best_opt` (the running-minimum tracking, with
  `none` standing for the initial `float('inf')` / `best_opt = None`) and
  `buildReport` (the report accumulation).  The final
  `report_data[best_opt]["is_best"] = True` assignment is `markBest`.
-/

namespace RetentionAI

/-- The per-feature unit-cost lookup `cost_card` of app.py:65-69, with the
`.get(col, 10.0)` default of line 81. -/
def cost_card (col : String) : ℚ :=
  if col = "MonthlyCharges" then 1
  else if col = "tenure" then 1000
  else if col = "TotalCharges" then 1
  else if col = "Contract_One year" then 50
  else if col = "Contract_Two year" then 100
  else if col = "InternetService_No" then 5
  else 10

/-- Structured form of the "col: old -> new" change description built at
app.py:84. -/
structure FieldChange where
  field : String
  oldVal : ℚ
  newVal : ℚ
deriving DecidableEq

/-- The cost function `calculate_cost` of app.py:64-85: iterate the columns
of the original record; whenever `|orig - cf| > 0.001` accumulate
`diff * unit_cost` and append a change description.  The recursion processes
columns in list order, so the change list keeps iteration order. -/
def calculate_cost (orig cf : String → ℚ) : List String → ℚ × List FieldChange
  | [] => (0, [])
  | col :: rest =>
    let d := |orig col - cf col|
    let r := calculate_cost orig cf rest
    if d > 1/1000 then (d * cost_card col + r.1, ⟨col, orig col, cf col⟩ :: r.2)
    else r

/-- Every unit cost in the cost card is strictly positive. -/
lemma cost_card_pos (col : String) : 0 < cost_card col := by
  unfold cost_card
  split_ifs <;> norm_num

lemma calculate_cost_nonneg (orig cf : String → ℚ) (cols : List String) :
    0 ≤ (calculate_cost orig cf cols).1 := by
  induction cols with
  | nil => simp [calculate_cost]
  | cons col rest ih =>
    simp only [calculate_cost]
    split
    · have h1 : (0:ℚ) ≤ |orig col - cf col| := abs_nonneg _
      have h2 := cost_card_pos col
      positivity
    · exact ih

lemma calculate_cost_eq_zero_iff (orig cf : String → ℚ) (cols : List String) :
    (calculate_cost orig cf cols).1 = 0 ↔
      ∀ col ∈ cols, |orig col - cf col| ≤ 1/1000 := by
  induction cols with
  | nil => simp [calculate_cost]
  | cons col rest ih =>
    simp only [calculate_cost, List.mem_cons]
    by_cases h : |orig col - cf col| > 1/1000
    · simp only [h, if_pos]
      constructor
      · intro hz
        exfalso
        have h1 : (0:ℚ) < |orig col - cf col| := lt_trans (by norm_num) h
        have h2 := cost_card_pos col
        have h3 := calculate_cost_nonneg orig cf rest
        nlinarith
      · intro hall
        exfalso
        have := hall col (Or.inl rfl)
        linarith
    · simp only [h, if_neg, not_false_iff]
      rw [ih]
      constructor
      · intro hall c hc
        rcases hc with hc | hc
        · subst hc; linarith [not_lt.mp h]
        · exact hall c hc
      · intro hall c hc
        exact hall c (Or.inr hc)

lemma calculate_cost_self (orig : String → ℚ) (cols : List String) :
    calculate_cost orig orig cols = (0, []) := by
  induction cols with
  | nil => rfl
  | cons col rest ih =>
    simp [calculate_cost, ih]

/-- One report entry `option_info` built at app.py:141-146. -/
structure OptionInfo where
  id : ℕ
  cost : ℚ
  changes : List FieldChange
  is_best : Bool
deriving DecidableEq

/-- The running-minimum tracking of the loop at app.py:137-152: the
accumulator is `none` while `best_opt is None` and `lowest_cost` is
`float('inf')`; `i` is the index of the next candidate; the update is the
`if cost < lowest_cost` branch at app.py:148-150. -/
def bestAux (i : ℕ) (acc : Option (ℕ × ℚ)) : List ℚ → Option (ℕ × ℚ)
  | [] => acc
  | c :: rest =>
    bestAux (i + 1)
      (match acc with
       | none => some (i, c)
       | some (bi, bc) => if c < bc then some (i, c) else some (bi, bc)) rest

/-- The final value of `best_opt` (paired with `lowest_cost`) after the loop
at app.py:137-152 runs over the given cost list. -/
def best_opt (costs : List ℚ) : Option (ℕ × ℚ) := bestAux 0 none costs

/-- Structural first-argmin: index and value of the first minimum of the
list.  Proved equal to `best_opt` below; used only for reasoning. -/
def firstArgmin : List ℚ → Option (ℕ × ℚ)
  | [] => none
  | c :: rest =>
    match firstArgmin rest with
    | none => some (0, c)
    | some (k, m) => if m < c then some (k + 1, m) else some (0, c)

lemma bestAux_some_eq (l : List ℚ) : ∀ (i bi : ℕ) (bc : ℚ),
    bestAux i (some (bi, bc)) l =
      match firstArgmin l with
      | none => some (bi, bc)
      | some (k, m) => if m < bc then some (i + k, m) else some (bi, bc) := by
  induction l with
  | nil => intro i bi bc; rfl
  | cons c rest ih =>
    intro i bi bc
    by_cases hc : c < bc
    · simp only [bestAux, hc, if_pos]
      rw [ih]
      cases hr : firstArgmin rest with
      | none => simp [firstArgmin, hr, hc]
      | some p =>
        obtain ⟨k, m⟩ := p
        by_cases hm : m < c
        · have hmbc : m < bc := lt_trans hm hc
          simp only [firstArgmin, hr, hm, if_pos, hmbc]
          have : i + 1 + k = i + (k + 1) := by omega
          simp [this]
        · simp [firstArgmin, hr, hm, hc]
    · simp only [bestAux, hc, if_neg, not_false_iff]
      rw [ih]
      cases hr : firstArgmin rest with
      | none => simp [firstArgmin, hr, hc]
      | some p =>
        obtain ⟨k, m⟩ := p
        by_cases hm : m < c
        · simp only [firstArgmin, hr, hm, if_pos]
          by_cases hmbc : m < bc
          · have : i + 1 + k = i + (k + 1) := by omega
            simp [hmbc, this]
          · simp [hmbc]
        · have hcm : c ≤ m := not_lt.mp hm
          have hbc : bc ≤ c := not_lt.mp hc
          have hmbc : ¬ m < bc := not_lt.mpr (le_trans hbc hcm)
          simp [firstArgmin, hr, hm, hc, hmbc]

lemma bestAux_none_eq (l : List ℚ) : ∀ (i : ℕ),
    bestAux i none l = (firstArgmin l).map (fun p => (i + p.1, p.2)) := by
  induction l with
  | nil => intro i; rfl
  | cons c rest _ =>
    intro i
    simp only [bestAux]
    rw [bestAux_some_eq]
    cases hr : firstArgmin rest with
    | none => simp [firstArgmin, hr]
    | some p =>
      obtain ⟨k, m⟩ := p
      by_cases hm : m < c
      · have : i + 1 + k = i + (k + 1) := by omega
        simp [firstArgmin, hr, hm, this]
      · simp [firstArgmin, hr, hm]

lemma best_opt_eq_firstArgmin (l : List ℚ) : best_opt l = firstArgmin l := by
  rw [best_opt, bestAux_none_eq]
  cases firstArgmin l with
  | none => rfl
  | some p => simp

lemma firstArgmin_eq_none_iff (l : List ℚ) : firstArgmin l = none ↔ l = [] := by
  cases l with
  | nil => simp [firstArgmin]
  | cons c rest =>
    simp only [firstArgmin, List.cons_ne_nil, iff_false]
    cases hr : firstArgmin rest with
    | none => simp
    | some p =>
      obtain ⟨k, m⟩ := p
      by_cases hm : m < c <;> simp [hm]

lemma firstArgmin_bounds (l : List ℚ) : ∀ (k : ℕ) (m : ℚ),
    firstArgmin l = some (k, m) →
      ∃ hk : k < l.length, l.get ⟨k, hk⟩ = m := by
  induction l with
  | nil => intro k m h; simp [firstArgmin] at h
  | cons c rest ih =>
    intro k m h
    cases hr : firstArgmin rest with
    | none =>
      simp only [firstArgmin, hr, Option.some.injEq, Prod.mk.injEq] at h
      obtain ⟨hk, hm⟩ := h
      subst hk; subst hm
      exact ⟨by simp, rfl⟩
    | some p =>
      obtain ⟨k', m'⟩ := p
      by_cases hm : m' < c
      · simp only [firstArgmin, hr, hm, if_pos, Option.some.injEq, Prod.mk.injEq] at h
        obtain ⟨hk, hmm⟩ := h
        subst hk; subst hmm
        obtain ⟨hk', hget⟩ := ih k' m' hr
        exact ⟨by simpa using Nat.succ_lt_succ hk', hget⟩
      · simp only [firstArgmin, hr, hm, if_neg, not_false_iff, Option.some.injEq,
          Prod.mk.injEq] at h
        obtain ⟨hk, hmm⟩ := h
        subst hk; subst hmm
        exact ⟨by simp, rfl⟩

lemma firstArgmin_min (l : List ℚ) : ∀ (k : ℕ) (m : ℚ),
    firstArgmin l = some (k, m) →
      ∀ (j : ℕ) (hj : j < l.length), m ≤ l.get ⟨j, hj⟩ := by
  induction l with
  | nil => intro k m h; simp [firstArgmin] at h
  | cons c rest ih =>
    intro k m h j hj
    cases hr : firstArgmin rest with
    | none =>
      have hrest : rest = [] := (firstArgmin_eq_none_iff rest).mp hr
      subst hrest
      simp only [firstArgmin, Option.some.injEq, Prod.mk.injEq] at h
      obtain ⟨-, hm⟩ := h
      subst hm
      have hj0 : j = 0 := by
        simp only [List.length_cons, List.length_nil] at hj
        omega
      subst hj0
      rfl
    | some p =>
      obtain ⟨k', m'⟩ := p
      by_cases hm : m' < c
      · simp only [firstArgmin, hr, hm, if_pos, Option.some.injEq, Prod.mk.injEq] at h
        obtain ⟨-, hmm⟩ := h
        subst hmm
        cases j with
        | zero => exact le_of_lt hm
        | succ j' => exact ih k' m' hr j' (Nat.lt_of_succ_lt_succ hj)
      · simp only [firstArgmin, hr, hm, if_neg, not_false_iff, Option.some.injEq,
          Prod.mk.injEq] at h
        obtain ⟨-, hmm⟩ := h
        subst hmm
        cases j with
        | zero => rfl
        | succ j' =>
          have h1 : c ≤ m' := not_lt.mp hm
          exact le_trans h1 (ih k' m' hr j' (Nat.lt_of_succ_lt_succ hj))

lemma firstArgmin_first (l : List ℚ) : ∀ (k : ℕ) (m : ℚ),
    firstArgmin l = some (k, m) →
      ∀ (j : ℕ) (hj : j < l.length), j < k → m < l.get ⟨j, hj⟩ := by
  induction l with
  | nil => intro k m h; simp [firstArgmin] at h
  | cons c rest ih =>
    intro k m h j hj hjk
    cases hr : firstArgmin rest with
    | none =>
      simp only [firstArgmin, hr, Option.some.injEq, Prod.mk.injEq] at h
      obtain ⟨hk, -⟩ := h
      omega
    | some p =>
      obtain ⟨k', m'⟩ := p
      by_cases hm : m' < c
      · simp only [firstArgmin, hr, hm, if_pos, Option.some.injEq, Prod.mk.injEq] at h
        obtain ⟨hk, hmm⟩ := h
        subst hmm
        cases j with
        | zero => exact hm
        | succ j' =>
          exact ih k' m' hr j' (Nat.lt_of_succ_lt_succ hj) (by omega)
      · simp only [firstArgmin, hr, hm, if_neg, not_false_iff, Option.some.injEq,
          Prod.mk.injEq] at h
        obtain ⟨hk, -⟩ := h
        omega

lemma firstArgmin_isSome (l : List ℚ) (hne : l ≠ []) :
    ∃ k m, firstArgmin l = some (k, m) := by
  cases hfa : firstArgmin l with
  | none => exact absurd ((firstArgmin_eq_none_iff l).mp hfa) hne
  | some p => exact ⟨p.1, p.2, by simp [hfa]⟩

/-- The cost of one counterfactual candidate against the original record
(the first component returned by `calculate_cost` at app.py:139). -/
def candCost (orig : String → ℚ) (cols : List String) (cf : String → ℚ) : ℚ :=
  (calculate_cost orig cf cols).1

/-- The list of per-candidate costs computed by the loop at app.py:137-139. -/
def costsOf (orig : String → ℚ) (cols : List String)
    (cands : List (String → ℚ)) : List ℚ :=
  cands.map (candCost orig cols)

/-- The `report_data` accumulation of app.py:137-152: each candidate `i`
becomes an entry with `id = i + 1`, its cost and change list, and
`is_best = False`. -/
def buildReport (orig : String → ℚ) (cols : List String) :
    ℕ → List (String → ℚ) → List OptionInfo
  | _, [] => []
  | i, cf :: rest =>
    { id := i + 1,
      cost := (calculate_cost orig cf cols).1,
      changes := (calculate_cost orig cf cols).2,
      is_best := false } :: buildReport orig cols (i + 1) rest

/-- The index assignment `report_data[best_opt]["is_best"] = True` of
app.py:154. -/
def markBest : List OptionInfo → ℕ → List OptionInfo
  | [], _ => []
  | o :: rest, 0 => { o with is_best := true } :: rest
  | o :: rest, i + 1 => o :: markBest rest i

/-- The selection pass of app.py:133-154: compute costs, track the running
minimum, then mark the best entry.  `none` models the `TypeError` Python
raises at `report_data[None]` when the candidate list is empty (`best_opt`
still `None`). -/
def runSelection (orig : String → ℚ) (cols : List String)
    (cands : List (String → ℚ)) : Option (List OptionInfo) :=
  match best_opt (costsOf orig cols cands) with
  | none => none
  | some p => some (markBest (buildReport orig cols 0 cands) p.1)

lemma buildReport_length (orig : String → ℚ) (cols : List String) :
    ∀ (i : ℕ) (cands : List (String → ℚ)),
      (buildReport orig cols i cands).length = cands.length := by
  intro i cands
  induction cands generalizing i with
  | nil => rfl
  | cons cf rest ih => simp [buildReport, ih]

lemma buildReport_all_not_best (orig : String → ℚ) (cols : List String) :
    ∀ (i : ℕ) (cands : List (String → ℚ)),
      ∀ o ∈ buildReport orig cols i cands, o.is_best = false := by
  intro i cands
  induction cands generalizing i with
  | nil => intro o ho; simp [buildReport] at ho
  | cons cf rest ih =>
    intro o ho
    simp only [buildReport, List.mem_cons] at ho
    rcases ho with ho | ho
    · rw [ho]
    · exact ih (i + 1) o ho

lemma markBest_count (rd : List OptionInfo) :
    ∀ (i : ℕ), i < rd.length → (∀ o ∈ rd, o.is_best = false) →
      (markBest rd i).countP (fun o => o.is_best) = 1 := by
  induction rd with
  | nil => intro i hi; simp at hi
  | cons o rest ih =>
    intro i hi hall
    cases i with
    | zero =>
      have hrest : rest.countP (fun o => o.is_best) = 0 := by
        rw [List.countP_eq_zero]
        intro a ha
        simp [hall a (List.mem_cons_of_mem o ha)]
      simp [markBest, List.countP_cons, hrest]
    | succ i' =>
      have hi' : i' < rest.length := Nat.lt_of_succ_lt_succ hi
      have hoFalse : o.is_best = false := hall o (List.mem_cons_self o rest)
      have hrec := ih i' hi' (fun a ha => hall a (List.mem_cons_of_mem o ha))
      simp [markBest, List.countP_cons, hrec, hoFalse]

/-- First minimiser of `f` over a list (ties to the earlier element); the
element-level counterpart of `firstArgmin`, used for reasoning about
budget filtering. -/
def pickMin {α : Type} (f : α → ℚ) : List α → Option α
  | [] => none
  | c :: rest =>
    match pickMin f rest with
    | none => some c
    | some w => if f w < f c then some w else some c

lemma pickMin_eq_none_iff {α : Type} (f : α → ℚ) (l : List α) :
    pickMin f l = none ↔ l = [] := by
  cases l with
  | nil => simp [pickMin]
  | cons c rest =>
    simp only [pickMin, List.cons_ne_nil, iff_false]
    cases hr : pickMin f rest with
    | none => simp
    | some w => by_cases hlt : f w < f c <;> simp [hlt]

lemma pickMin_mem {α : Type} (f : α → ℚ) (l : List α) :
    ∀ w, pickMin f l = some w → w ∈ l := by
  induction l with
  | nil => intro w h; simp [pickMin] at h
  | cons c rest ih =>
    intro w h
    simp only [pickMin] at h
    cases hr : pickMin f rest with
    | none =>
      rw [hr] at h
      simp only [Option.some.injEq] at h
      subst h
      exact List.mem_cons_self c rest
    | some w' =>
      rw [hr] at h
      by_cases hlt : f w' < f c
      · simp only [hlt, if_pos, Option.some.injEq] at h
        subst h
        exact List.mem_cons_of_mem c (ih w' hr)
      · simp only [hlt, if_neg, not_false_iff, Option.some.injEq] at h
        subst h
        exact List.mem_cons_self c rest

lemma pickMin_min {α : Type} (f : α → ℚ) (l : List α) :
    ∀ w, pickMin f l = some w → ∀ x ∈ l, f w ≤ f x := by
  induction l with
  | nil => intro w h; simp [pickMin] at h
  | cons c rest ih =>
    intro w h x hx
    simp only [pickMin] at h
    cases hr : pickMin f rest with
    | none =>
      have hrest : rest = [] := (pickMin_eq_none_iff f rest).mp hr
      subst hrest
      rw [hr] at h
      simp only [Option.some.injEq] at h
      subst h
      simp only [List.mem_singleton] at hx
      subst hx
      exact le_refl _
    | some w' =>
      rw [hr] at h
      rcases List.mem_cons.mp hx with hxc | hxr
      · subst hxc
        by_cases hlt : f w' < f x
        · simp only [hlt, if_pos, Option.some.injEq] at h
          subst h
          exact le_of_lt hlt
        · simp only [hlt, if_neg, not_false_iff, Option.some.injEq] at h
          subst h
          exact le_refl _
      · by_cases hlt : f w' < f c
        · simp only [hlt, if_pos, Option.some.injEq] at h
          subst h
          exact ih w' hr x hxr
        · simp only [hlt, if_neg, not_false_iff, Option.some.injEq] at h
          subst h
          exact le_trans (not_lt.mp hlt) (ih w' hr x hxr)

lemma pickMin_spec_mp {α : Type} (f : α → ℚ) (l : List α) (w : α)
    (h : pickMin f l = some w) :
    ∃ l1 l2, l = l1 ++ w :: l2 ∧ (∀ x ∈ l1, f w < f x) ∧ (∀ x ∈ l2, f w ≤ f x) := by
  induction l with
  | nil => simp [pickMin] at h
  | cons c rest ih =>
    simp only [pickMin] at h
    cases hr : pickMin f rest with
    | none =>
      have hrest : rest = [] := (pickMin_eq_none_iff f rest).mp hr
      subst hrest
      rw [hr] at h
      simp only [Option.some.injEq] at h
      subst h
      exact ⟨[], [], rfl, by simp, by simp⟩
    | some w' =>
      rw [hr] at h
      by_cases hlt : f w' < f c
      · simp only [hlt, if_pos, Option.some.injEq] at h
        subst h
        obtain ⟨l1, l2, hl, h1, h2⟩ := ih hr
        refine ⟨c :: l1, l2, by rw [hl]; rfl, ?_, h2⟩
        intro x hx
        rcases List.mem_cons.mp hx with hxc | hxl
        · subst hxc; exact hlt
        · exact h1 x hxl
      · simp only [hlt, if_neg, not_false_iff, Option.some.injEq] at h
        subst h
        refine ⟨[], rest, rfl, by simp, ?_⟩
        intro x hx
        exact le_trans (not_lt.mp hlt) (pickMin_min f rest w' hr x hx)

lemma pickMin_spec_mpr {α : Type} (f : α → ℚ) (w : α) :
    ∀ (l1 l2 : List α), (∀ x ∈ l1, f w < f x) → (∀ x ∈ l2, f w ≤ f x) →
      pickMin f (l1 ++ w :: l2) = some w := by
  intro l1
  induction l1 with
  | nil =>
    intro l2 _ h2
    simp only [List.nil_append, pickMin]
    cases hr : pickMin f l2 with
    | none => rfl
    | some w'' =>
      have hmem : w'' ∈ l2 := pickMin_mem f l2 w'' hr
      have hle : f w ≤ f w'' := h2 w'' hmem
      simp [not_lt.mpr hle]
  | cons a l1' ih =>
    intro l2 h1 h2
    have hinner : pickMin f (l1' ++ w :: l2) = some w :=
      ih l2 (fun x hx => h1 x (List.mem_cons_of_mem a hx)) h2
    have hwa : f w < f a := h1 a (List.mem_cons_self a l1')
    simp [pickMin, hinner, hwa]

lemma filter_split {α : Type} (p : α → Bool) :
    ∀ (l a1 a2 : List α) (w : α), l.filter p = a1 ++ w :: a2 →
      ∃ l1 l2, l = l1 ++ w :: l2 ∧ l1.filter p = a1 ∧ l2.filter p = a2 ∧
        p w = true := by
  intro l
  induction l with
  | nil =>
    intro a1 a2 w h
    rw [List.filter_nil] at h
    cases a1 <;> simp at h
  | cons c rest ih =>
    intro a1 a2 w h
    by_cases hp : p c = true
    · rw [List.filter_cons, if_pos hp] at h
      cases a1 with
      | nil =>
        simp only [List.nil_append, List.cons.injEq] at h
        obtain ⟨hcw, hrest⟩ := h
        subst hcw
        exact ⟨[], rest, rfl, rfl, hrest, hp⟩
      | cons b a1' =>
        simp only [List.cons_append, List.cons.injEq] at h
        obtain ⟨hcb, hrest⟩ := h
        subst hcb
        obtain ⟨l1, l2, hl, hf1, hf2, hw⟩ := ih a1' a2 w hrest
        refine ⟨c :: l1, l2, by rw [hl]; rfl, ?_, hf2, hw⟩
        rw [List.filter_cons, if_pos hp, hf1]
    · rw [List.filter_cons, if_neg hp] at h
      obtain ⟨l1, l2, hl, hf1, hf2, hw⟩ := ih a1 a2 w h
      refine ⟨c :: l1, l2, by rw [hl]; rfl, ?_, hf2, hw⟩
      rw [List.filter_cons, if_neg hp, hf1]

lemma pickMin_filter_subset {α : Type} (f : α → ℚ) (p q : α → Bool)
    (l : List α) (w : α)
    (hw : pickMin f (l.filter p) = some w)
    (hpq : ∀ x, p x = true → q x = true)
    (hnew : ∀ x ∈ l, q x = true → p x ≠ true → f w < f x) :
    pickMin f (l.filter q) = some w := by
  obtain ⟨a1, a2, hsplit, h1, h2⟩ := pickMin_spec_mp f (l.filter p) w hw
  obtain ⟨l1, l2, hl, hf1, hf2, hpw⟩ := filter_split p l a1 a2 w hsplit
  subst hl
  have hqw : q w = true := hpq w hpw
  rw [List.filter_append, List.filter_cons, if_pos hqw]
  apply pickMin_spec_mpr
  · intro x hx
    obtain ⟨hxl, hqx⟩ := List.mem_filter.mp hx
    by_cases hpx : p x = true
    · have hxa1 : x ∈ a1 := by
        rw [← hf1]
        exact List.mem_filter.mpr ⟨hxl, hpx⟩
      exact h1 x hxa1
    · exact hnew x (List.mem_append_left _ hxl) hqx hpx
  · intro x hx
    obtain ⟨hxl, hqx⟩ := List.mem_filter.mp hx
    by_cases hpx : p x = true
    · have hxa2 : x ∈ a2 := by
        rw [← hf2]
        exact List.mem_filter.mpr ⟨hxl, hpx⟩
      exact h2 x hxa2
    · exact le_of_lt
        (hnew x (List.mem_append_right _ (List.mem_cons_of_mem w hxl)) hqx hpx)

lemma firstArgmin_map_pickMin {α : Type} (f : α → ℚ) (l : List α) :
    (pickMin f l = none ∧ firstArgmin (l.map f) = none) ∨
      (∃ k w, pickMin f l = some w ∧ firstArgmin (l.map f) = some (k, f w) ∧
        l.get? k = some w) := by
  induction l with
  | nil => exact Or.inl ⟨rfl, rfl⟩
  | cons c rest ih =>
    rcases ih with ⟨h1, h2⟩ | ⟨k, w, h1, h2, h3⟩
    · refine Or.inr ⟨0, c, ?_, ?_, rfl⟩
      · simp [pickMin, h1]
      · simp [firstArgmin, h2]
    · by_cases hlt : f w < f c
      · refine Or.inr ⟨k + 1, w, ?_, ?_, ?_⟩
        · simp [pickMin, h1, hlt]
        · simp [firstArgmin, h2, hlt]
        · simpa using h3
      · refine Or.inr ⟨0, c, ?_, ?_, rfl⟩
        · simp [pickMin, h1, hlt]
        · simp [firstArgmin, h2, hlt]

/-- Modelled from the spec: the error taxonomy of §7.  `NoViableCandidateError`
(no candidate survives budget filtering, or the candidate set is empty) is not
present in src/app.py, which has no budget parameter and indexes
`report_data[None]` on an empty candidate set. -/
inductive SelectError where
  | NoViableCandidateError
deriving DecidableEq

/-- Modelled from the spec (§4.3 step 1): with a budget, filter out any
candidate whose cost exceeds the budget; with no budget, keep all candidates.
No budget filtering exists in src/app.py. -/
def eligibleUnder (orig : String → ℚ) (cols : List String)
    (budget : Option ℚ) (cands : List (String → ℚ)) : List (String → ℚ) :=
  match budget with
  | none => cands
  | some b => cands.filter (fun cf => decide (candCost orig cols cf ≤ b))

/-- Modelled from the spec (§4.3): `select` filters by budget, then runs the
minimum-cost selection of src/app.py over the surviving candidates, failing
with `NoViableCandidateError` when none survive. -/
def selectWithBudget (orig : String → ℚ) (cols : List String)
    (cands : List (String → ℚ)) (budget : Option ℚ) :
    Except SelectError (List OptionInfo) :=
  match runSelection orig cols (eligibleUnder orig cols budget cands) with
  | none => Except.error SelectError.NoViableCandidateError
  | some rd => Except.ok rd

/-- Modelled from the spec (§4.3): the winning candidate of `select` — the
eligible candidate the minimum-cost loop marks, as an element of the
candidate list. -/
def winnerOf (orig : String → ℚ) (cols : List String)
    (cands : List (String → ℚ)) (budget : Option ℚ) : Option (String → ℚ) :=
  match best_opt (costsOf orig cols (eligibleUnder orig cols budget cands)) with
  | none => none
  | some p => (eligibleUnder orig cols budget cands).get? p.1

lemma winnerOf_eq_pickMin (orig : String → ℚ) (cols : List String)
    (cands : List (String → ℚ)) (budget : Option ℚ) :
    winnerOf orig cols cands budget =
      pickMin (candCost orig cols) (eligibleUnder orig cols budget cands) := by
  unfold winnerOf
  rcases firstArgmin_map_pickMin (candCost orig cols)
      (eligibleUnder orig cols budget cands) with ⟨h1, h2⟩ | ⟨k, w, h1, h2, h3⟩
  · rw [h1]
    have : best_opt (costsOf orig cols (eligibleUnder orig cols budget cands)) =
        none := by
      rw [best_opt_eq_firstArgmin]
      exact h2
    rw [this]
  · rw [h1]
    have hb : best_opt (costsOf orig cols (eligibleUnder orig cols budget cands)) =
        some (k, candCost orig cols w) := by
      rw [best_opt_eq_firstArgmin]
      exact h2
    rw [hb]
    exact h3

lemma best_opt_eq_none_iff (l : List ℚ) : best_opt l = none ↔ l = [] := by
  rw [best_opt_eq_firstArgmin]
  exact firstArgmin_eq_none_iff l

lemma runSelection_eq_none_iff (orig : String → ℚ) (cols : List String)
    (cands : List (String → ℚ)) :
    runSelection orig cols cands = none ↔ cands = [] := by
  unfold runSelection
  cases hb : best_opt (costsOf orig cols cands) with
  | none =>
    simp only [true_iff]
    have h1 : costsOf orig cols cands = [] := (best_opt_eq_none_iff _).mp hb
    exact List.map_eq_nil_iff.mp h1
  | some p =>
    simp only [Option.some_ne_none, false_iff]
    intro hc
    subst hc
    simp [costsOf, best_opt, bestAux] at hb

/-- Modelled from the spec (§4.1): the rule-backed RiskAssessor, which is not
present under src/ (src/app.py only has the model-backed path).  Base score
50; cumulative, independent threshold adjustments on tenure, monthly charge
and contract type; final score clamped to [1, 99]. -/
def ruleScore (tenure monthlyCharge : ℚ) (contract : String) : ℚ :=
  let s0 : ℚ := 50
  let s1 := if tenure < 6 then s0 + 30 else s0
  let s2 := if tenure > 60 then s1 - 20 else s1
  let s3 := if monthlyCharge > 80 then s2 + 20 else s2
  let s4 := if monthlyCharge < 30 then s3 - 10 else s3
  let s5 := if contract = "Month-to-month" then s4 + 15 else s4
  min 99 (max 1 s5)

/-- One cell of a pandas row, as seen by `NumericXGBWrapper._clean`
(src/app.py:26-29): a numeric value, a Python boolean, a string, or a
missing value (NaN). -/
inductive Cell where
  | num (q : ℚ)
  | bool (b : Bool)
  | str (s : String)
  | missing
deriving DecidableEq

/-- The per-cell effect of `NumericXGBWrapper._clean` (src/app.py:26-29):
`replace({'True': 1, 'False': 0, True: 1, False: 0})`, then
`pd.to_numeric(errors='coerce')` (strings parse via the ambient `parseNum`,
failures become NaN), then `fillna(0)`.  The result is always a number. -/
def cleanCell (parseNum : String → Option ℚ) : Cell → ℚ
  | Cell.num q => q
  | Cell.bool b => if b then 1 else 0
  | Cell.str s =>
      if s = "True" then 1
      else if s = "False" then 0
      else (parseNum s).getD 0
  | Cell.missing => 0

/-- A record cleaned cell-by-cell, as `_clean` does column-wise before
inference. -/
def cleanRecord (parseNum : String → Option ℚ) (row : List Cell) : List ℚ :=
  row.map (cleanCell parseNum)

/-- `NumericXGBWrapper.predict_proba` (src/app.py:30-31): the wrapped
classifier `m` applied to the cleaned record. -/
def wrapperPredictProba (parseNum : String → Option ℚ)
    (m : List ℚ → ℚ) (row : List Cell) : ℚ :=
  m (cleanRecord parseNum row)

/-- The status string of src/app.py:101:
`"HIGH RISK" if prob > 0.5 else "Safe"`. -/
def churn_status (prob : ℚ) : String :=
  if prob > 1/2 then "HIGH RISK" else "Safe"

/-- The gate of src/app.py:114/236-237: the retention engine runs only in the
`prob > 0.5` branch; otherwise the customer is reported safe and no
recommendation is produced (`none`). -/
def analyze (orig : String → ℚ) (cols : List String) (prob : ℚ)
    (cands : List (String → ℚ)) : Option (Option (List OptionInfo)) :=
  if prob > 1/2 then some (runSelection orig cols cands) else none

lemma calculate_cost_fst_eq_sum (orig cf : String → ℚ) (cols : List String) :
    (calculate_cost orig cf cols).1 =
      ((cols.filter (fun col => decide (1/1000 < |orig col - cf col|))).map
        (fun col => |orig col - cf col| * cost_card col)).sum := by
  induction cols with
  | nil => simp [calculate_cost]
  | cons c rest ih =>
    by_cases hc : |orig c - cf c| > 1/1000
    · simp only [calculate_cost, hc, if_pos, List.filter_cons,
        decide_eq_true_eq, gt_iff_lt]
      simp [ih]
    · simp only [calculate_cost, hc, if_neg, not_false_iff, List.filter_cons,
        decide_eq_true_eq, gt_iff_lt]
      exact ih

lemma calculate_cost_mem_changes (orig cf : String → ℚ) (cols : List String)
    (col : String) :
    (∃ fc ∈ (calculate_cost orig cf cols).2, fc.field = col) ↔
      (col ∈ cols ∧ 1/1000 < |orig col - cf col|) := by
  induction cols with
  | nil => simp [calculate_cost]
  | cons c rest ih =>
    by_cases hc : |orig c - cf c| > 1/1000
    · simp only [calculate_cost, hc, if_pos, List.mem_cons]
      constructor
      · rintro ⟨fc, hfc, hfield⟩
        rcases hfc with rfl | hfc2
        · have hcol : c = col := hfield
          subst hcol
          exact ⟨Or.inl rfl, hc⟩
        · obtain ⟨hmem, hlt⟩ := ih.mp ⟨fc, hfc2, hfield⟩
          exact ⟨Or.inr hmem, hlt⟩
      · rintro ⟨hmem | hmem, hlt⟩
        · subst hmem
          exact ⟨⟨col, orig col, cf col⟩, Or.inl rfl, rfl⟩
        · obtain ⟨fc, hfc, hfield⟩ := ih.mpr ⟨hmem, hlt⟩
          exact ⟨fc, Or.inr hfc, hfield⟩
    · simp only [calculate_cost, hc, if_neg, not_false_iff, List.mem_cons]
      rw [ih]
      constructor
      · rintro ⟨hmem, hlt⟩
        exact ⟨Or.inr hmem, hlt⟩
      · rintro ⟨hmem | hmem, hlt⟩
        · subst hmem
          exact absurd hlt hc
        · exact ⟨hmem, hlt⟩

/-- C2: the computed cost is the sum, over exactly the features whose
original-vs-proposed gap exceeds the 0.001 tolerance, of `|delta|` times the
feature's unit cost; the unit-cost table returns 10.0 for unlisted features
and 1000.0 for tenure; and a feature occurs in the returned change list iff
its gap exceeds the tolerance. -/
theorem cost_is_tolerance_filtered_weighted_sum
    (orig cf : String → ℚ) (cols : List String) (col other : String)
    (hother : other ∉ (["MonthlyCharges", "tenure", "TotalCharges",
      "Contract_One year", "Contract_Two year", "InternetService_No"] :
        List String)) :
    (calculate_cost orig cf cols).1 =
      ((cols.filter (fun c => decide (1/1000 < |orig c - cf c|))).map
        (fun c => |orig c - cf c| * cost_card c)).sum ∧
    ((∃ fc ∈ (calculate_cost orig cf cols).2, fc.field = col) ↔
      (col ∈ cols ∧ 1/1000 < |orig col - cf col|)) ∧
    cost_card "tenure" = 1000 ∧
    cost_card other = 10 := by
  refine ⟨calculate_cost_fst_eq_sum orig cf cols,
    calculate_cost_mem_changes orig cf cols col, rfl, ?_⟩
  simp only [List.mem_cons, List.mem_singleton, not_or] at hother
  obtain ⟨h1, h2, h3, h4, h5, h6⟩ := hother
  simp [cost_card, h1, h2, h3, h4, h5, h6]

/-- Witness for C2 at a concrete record, candidate and column list. -/
theorem cost_is_tolerance_filtered_weighted_sum_witness :
    ("Extra" ∉ (["MonthlyCharges", "tenure", "TotalCharges",
      "Contract_One year", "Contract_Two year", "InternetService_No"] :
        List String)) ∧
    ((calculate_cost (fun _ => 10) (fun c => if c = "tenure" then 12 else 10)
        ["tenure", "MonthlyCharges"]).1 =
      (((["tenure", "MonthlyCharges"] : List String).filter
          (fun c => decide (1/1000 <
            |(fun _ => (10:ℚ)) c -
              (fun c => if c = "tenure" then (12:ℚ) else 10) c|))).map
        (fun c => |(fun _ => (10:ℚ)) c -
            (fun c => if c = "tenure" then (12:ℚ) else 10) c| *
          cost_card c)).sum ∧
    ((∃ fc ∈ (calculate_cost (fun _ => 10)
          (fun c => if c = "tenure" then 12 else 10)
          ["tenure", "MonthlyCharges"]).2, fc.field = "tenure") ↔
       ("tenure" ∈ (["tenure", "MonthlyCharges"] : List String) ∧
        1/1000 < |(fun _ => (10:ℚ)) "tenure" -
          (fun c => if c = "tenure" then (12:ℚ) else 10) "tenure"|)) ∧
    cost_card "tenure" = 1000 ∧
    cost_card "Extra" = 10) :=
  ⟨by decide,
   cost_is_tolerance_filtered_weighted_sum (fun _ => 10)
     (fun c => if c = "tenure" then 12 else 10)
     ["tenure", "MonthlyCharges"] "tenure" "Extra" (by decide)⟩

/-- C3: the computed cost is nonnegative; it is zero exactly when every
feature's gap is within the 0.001 tolerance; and a candidate identical to
the original record costs 0 with an empty change list. -/
theorem cost_nonneg_zero_iff_within_tolerance
    (orig cf : String → ℚ) (cols : List String) :
    0 ≤ (calculate_cost orig cf cols).1 ∧
    ((calculate_cost orig cf cols).1 = 0 ↔
      ∀ col ∈ cols, |orig col - cf col| ≤ 1/1000) ∧
    calculate_cost orig orig cols = (0, []) :=
  ⟨calculate_cost_nonneg orig cf cols,
   calculate_cost_eq_zero_iff orig cf cols,
   calculate_cost_self orig cols⟩

lemma get_map_eq {α β : Type} (f : α → β) (l : List α) :
    ∀ (j : ℕ) (hj : j < l.length) (hj' : j < (l.map f).length),
      (l.map f).get ⟨j, hj'⟩ = f (l.get ⟨j, hj⟩) := by
  induction l with
  | nil => intro j hj; simp at hj
  | cons a rest ih =>
    intro j hj hj'
    cases j with
    | zero => rfl
    | succ j' =>
      exact ih j' (Nat.lt_of_succ_lt_succ hj) (Nat.lt_of_succ_lt_succ hj')

/-- C1: on a non-empty candidate list, the selection loop of app.py:133-154
settles on an index whose computed cost is less than or equal to every
candidate's cost, and any candidate attaining that cost has an index no
smaller (first-seen wins on ties). -/
theorem selection_min_cost_first_wins (orig : String → ℚ) (cols : List String)
    (cands : List (String → ℚ)) (hne : cands ≠ []) :
    ∃ i c, best_opt (costsOf orig cols cands) = some (i, c) ∧
      ∃ hi : i < cands.length,
        c = candCost orig cols (cands.get ⟨i, hi⟩) ∧
        (∀ j (hj : j < cands.length),
          c ≤ candCost orig cols (cands.get ⟨j, hj⟩)) ∧
        (∀ j (hj : j < cands.length),
          candCost orig cols (cands.get ⟨j, hj⟩) = c → i ≤ j) := by
  have hlen : (costsOf orig cols cands).length = cands.length :=
    List.length_map _ _
  have hne' : costsOf orig cols cands ≠ [] := by
    intro h
    exact hne (List.map_eq_nil_iff.mp h)
  obtain ⟨k, m, hfa⟩ := firstArgmin_isSome _ hne'
  refine ⟨k, m, ?_, ?_⟩
  · rw [best_opt_eq_firstArgmin]
    exact hfa
  · obtain ⟨hk, hget⟩ := firstArgmin_bounds _ k m hfa
    have hk' : k < cands.length := hlen ▸ hk
    refine ⟨hk', ?_, ?_, ?_⟩
    · rw [← hget]
      exact get_map_eq (candCost orig cols) cands k hk' hk
    · intro j hj
      have hj' : j < (costsOf orig cols cands).length := hlen ▸ hj
      have hmin := firstArgmin_min _ k m hfa j hj'
      have heq : (costsOf orig cols cands).get ⟨j, hj'⟩ =
          candCost orig cols (cands.get ⟨j, hj⟩) :=
        get_map_eq (candCost orig cols) cands j hj hj'
      rwa [heq] at hmin
    · intro j hj hcost
      by_contra hlt
      push_neg at hlt
      have hj' : j < (costsOf orig cols cands).length := hlen ▸ hj
      have hstrict := firstArgmin_first _ k m hfa j hj' hlt
      have heq : (costsOf orig cols cands).get ⟨j, hj'⟩ =
          candCost orig cols (cands.get ⟨j, hj⟩) :=
        get_map_eq (candCost orig cols) cands j hj hj'
      rw [heq, hcost] at hstrict
      exact lt_irrefl m hstrict

/-- Witness for C1: two candidates with costs 30 and 30 (a tie); the loop
keeps index 0. -/
theorem selection_min_cost_first_wins_witness :
    ((([fun c => if c = "MonthlyCharges" then (70:ℚ) else 0,
        fun c => if c = "MonthlyCharges" then (70:ℚ) else 0]) :
          List (String → ℚ)) ≠ []) ∧
    (∃ i c, best_opt (costsOf (fun c => if c = "MonthlyCharges" then (100:ℚ) else 0)
        ["MonthlyCharges"]
        [fun c => if c = "MonthlyCharges" then (70:ℚ) else 0,
         fun c => if c = "MonthlyCharges" then (70:ℚ) else 0]) = some (i, c) ∧
      ∃ hi : i < ([fun c => if c = "MonthlyCharges" then (70:ℚ) else 0,
          fun c => if c = "MonthlyCharges" then (70:ℚ) else 0] :
            List (String → ℚ)).length,
        c = candCost (fun c => if c = "MonthlyCharges" then (100:ℚ) else 0)
            ["MonthlyCharges"]
            (([fun c => if c = "MonthlyCharges" then (70:ℚ) else 0,
               fun c => if c = "MonthlyCharges" then (70:ℚ) else 0] :
                 List (String → ℚ)).get ⟨i, hi⟩) ∧
        (∀ j (hj : j < ([fun c => if c = "MonthlyCharges" then (70:ℚ) else 0,
            fun c => if c = "MonthlyCharges" then (70:ℚ) else 0] :
              List (String → ℚ)).length),
          c ≤ candCost (fun c => if c = "MonthlyCharges" then (100:ℚ) else 0)
              ["MonthlyCharges"]
              (([fun c => if c = "MonthlyCharges" then (70:ℚ) else 0,
                 fun c => if c = "MonthlyCharges" then (70:ℚ) else 0] :
                   List (String → ℚ)).get ⟨j, hj⟩)) ∧
        (∀ j (hj : j < ([fun c => if c = "MonthlyCharges" then (70:ℚ) else 0,
            fun c => if c = "MonthlyCharges" then (70:ℚ) else 0] :
              List (String → ℚ)).length),
          candCost (fun c => if c = "MonthlyCharges" then (100:ℚ) else 0)
              ["MonthlyCharges"]
              (([fun c => if c = "MonthlyCharges" then (70:ℚ) else 0,
                 fun c => if c = "MonthlyCharges" then (70:ℚ) else 0] :
                   List (String → ℚ)).get ⟨j, hj⟩) = c → i ≤ j)) :=
  ⟨by simp,
   selection_min_cost_first_wins
     (fun c => if c = "MonthlyCharges" then (100:ℚ) else 0)
     ["MonthlyCharges"]
     [fun c => if c = "MonthlyCharges" then (70:ℚ) else 0,
      fun c => if c = "MonthlyCharges" then (70:ℚ) else 0]
     (by simp)⟩

/-- C4: after the selection pass runs on a non-empty candidate list, exactly
one report entry has `is_best = true` (so all others have it false). -/
theorem exactly_one_is_best (orig : String → ℚ) (cols : List String)
    (cands : List (String → ℚ)) (hne : cands ≠ []) :
    ∃ rd, runSelection orig cols cands = some rd ∧
      rd.countP (fun o => o.is_best) = 1 := by
  have hne' : costsOf orig cols cands ≠ [] := fun h =>
    hne (List.map_eq_nil_iff.mp h)
  obtain ⟨k, m, hfa⟩ := firstArgmin_isSome _ hne'
  have hb : best_opt (costsOf orig cols cands) = some (k, m) := by
    rw [best_opt_eq_firstArgmin]
    exact hfa
  obtain ⟨hk, -⟩ := firstArgmin_bounds _ k m hfa
  have hklen : k < (buildReport orig cols 0 cands).length := by
    rw [buildReport_length]
    exact (List.length_map _ _) ▸ hk
  refine ⟨markBest (buildReport orig cols 0 cands) k, ?_, ?_⟩
  · simp [runSelection, hb]
  · exact markBest_count _ k hklen (buildReport_all_not_best orig cols 0 cands)

/-- Witness for C4 on a two-candidate list. -/
theorem exactly_one_is_best_witness :
    (([fun _ => (5:ℚ), fun _ => (7:ℚ)] : List (String → ℚ)) ≠ []) ∧
    ∃ rd, runSelection (fun _ => (5:ℚ)) ["tenure"]
        [fun _ => (5:ℚ), fun _ => (7:ℚ)] = some rd ∧
      rd.countP (fun o => o.is_best) = 1 :=
  ⟨by simp,
   exactly_one_is_best (fun _ => (5:ℚ)) ["tenure"]
     [fun _ => (5:ℚ), fun _ => (7:ℚ)] (by simp)⟩

/-- C6: the selection pass is deterministic — two runs on the identical
candidate list and original record yield the identical report: same winning
entry and same ordering. -/
theorem selection_deterministic (orig : String → ℚ) (cols : List String)
    (cands : List (String → ℚ)) (r1 r2 : Option (List OptionInfo))
    (h1 : r1 = runSelection orig cols cands)
    (h2 : r2 = runSelection orig cols cands) : r1 = r2 :=
  h1.trans h2.symm

/-- Witness for C6 at a concrete run. -/
theorem selection_deterministic_witness :
    (runSelection (fun _ => (0:ℚ)) [] [fun _ => (1:ℚ)] =
      runSelection (fun _ => (0:ℚ)) [] [fun _ => (1:ℚ)]) ∧
    (runSelection (fun _ => (0:ℚ)) [] [fun _ => (1:ℚ)] =
      runSelection (fun _ => (0:ℚ)) [] [fun _ => (1:ℚ)]) ∧
    runSelection (fun _ => (0:ℚ)) [] [fun _ => (1:ℚ)] =
      runSelection (fun _ => (0:ℚ)) [] [fun _ => (1:ℚ)] :=
  ⟨rfl, rfl,
   selection_deterministic (fun _ => (0:ℚ)) [] [fun _ => (1:ℚ)]
     (runSelection (fun _ => (0:ℚ)) [] [fun _ => (1:ℚ)])
     (runSelection (fun _ => (0:ℚ)) [] [fun _ => (1:ℚ)]) rfl rfl⟩

/-- C10: the retention engine runs (produces a report) iff the churn
probability strictly exceeds 0.5; at exactly 0.5 the customer is labeled
"Safe" and no recommendation is produced. -/
theorem engine_gate_strict (orig : String → ℚ) (cols : List String)
    (cands : List (String → ℚ)) (prob : ℚ) :
    ((∃ r, analyze orig cols prob cands = some r) ↔ 1/2 < prob) ∧
    analyze orig cols (1/2) cands = none ∧
    churn_status (1/2) = "Safe" := by
  refine ⟨⟨?_, ?_⟩, ?_, ?_⟩
  · rintro ⟨r, hr⟩
    by_contra hle
    unfold analyze at hr
    split at hr
    · rename_i hc
      exact hle hc
    · exact Option.noConfusion hr
  · intro h
    refine ⟨runSelection orig cols cands, ?_⟩
    unfold analyze
    split
    · rfl
    · rename_i hc
      exact absurd h hc
  · norm_num [analyze]
  · norm_num [churn_status]

/-- Witness for C10 at a concrete probability. -/
theorem engine_gate_strict_witness :
    (((∃ r, analyze (fun _ => (0:ℚ)) [] (3/4) [] = some r) ↔
      (1:ℚ)/2 < 3/4) ∧
     analyze (fun _ => (0:ℚ)) [] (1/2) [] = none ∧
     churn_status (1/2) = "Safe") :=
  engine_gate_strict (fun _ => (0:ℚ)) [] [] (3/4)

lemma eligibleUnder_some_eq (orig : String → ℚ) (cols : List String)
    (b : ℚ) (cands : List (String → ℚ)) :
    eligibleUnder orig cols (some b) cands =
      cands.filter (fun cf => decide (candCost orig cols cf ≤ b)) := rfl

/-- C5 (spec-modelled): `select` fails with `NoViableCandidateError` exactly
when no candidate survives budget filtering — in particular on an empty
candidate set — and in that case returns no report at all, so no candidate is
marked selected and no arbitrary default is produced. -/
theorem no_viable_candidate_error (orig : String → ℚ) (cols : List String)
    (cands : List (String → ℚ)) (budget : Option ℚ) (b : ℚ) :
    selectWithBudget orig cols [] budget =
      Except.error SelectError.NoViableCandidateError ∧
    (selectWithBudget orig cols cands (some b) =
        Except.error SelectError.NoViableCandidateError ↔
      ∀ cf ∈ cands, ¬ candCost orig cols cf ≤ b) := by
  constructor
  · have hel : eligibleUnder orig cols budget [] = [] := by
      cases budget <;> rfl
    unfold selectWithBudget
    rw [hel, (runSelection_eq_none_iff orig cols []).mpr rfl]
  · unfold selectWithBudget
    cases hrs : runSelection orig cols (eligibleUnder orig cols (some b) cands)
        with
    | none =>
      simp only [true_iff]
      intro cf hmem hle
      have hel : eligibleUnder orig cols (some b) cands = [] :=
        (runSelection_eq_none_iff _ _ _).mp hrs
      rw [eligibleUnder_some_eq] at hel
      have hin : cf ∈ cands.filter
          (fun cf => decide (candCost orig cols cf ≤ b)) :=
        List.mem_filter.mpr ⟨hmem, decide_eq_true hle⟩
      rw [hel] at hin
      exact absurd hin (List.not_mem_nil cf)
    | some rd =>
      constructor
      · intro h
        exact Except.noConfusion h
      · intro hall
        exfalso
        have hel : eligibleUnder orig cols (some b) cands ≠ [] := by
          intro h0
          rw [(runSelection_eq_none_iff _ _ _).mpr h0] at hrs
          exact Option.noConfusion hrs
        rw [eligibleUnder_some_eq] at hel
        obtain ⟨cf, hcf⟩ := List.exists_mem_of_ne_nil _ hel
        obtain ⟨hmem, hdec⟩ := List.mem_filter.mp hcf
        exact hall cf hmem (of_decide_eq_true hdec)

/-- Witness for C5: one candidate costing 5000 against a budget of 1. -/
theorem no_viable_candidate_error_witness :
    (selectWithBudget (fun _ => (0:ℚ)) ["tenure"] [] none =
      Except.error SelectError.NoViableCandidateError) ∧
    (selectWithBudget (fun _ => (0:ℚ)) ["tenure"] [fun _ => (5:ℚ)]
        (some (1:ℚ)) =
        Except.error SelectError.NoViableCandidateError ↔
      ∀ cf ∈ ([fun _ => (5:ℚ)] : List (String → ℚ)),
        ¬ candCost (fun _ => (0:ℚ)) ["tenure"] cf ≤ 1) :=
  no_viable_candidate_error (fun _ => (0:ℚ)) ["tenure"]
    [fun _ => (5:ℚ)] none 1

/-- C7 (spec-modelled): budget filtering is monotonic — raising the budget
from b1 to b2 keeps every b1-eligible candidate eligible, and the winner
under b2 is the winner under b1, or else a candidate costing no more that b1
had excluded. -/
theorem budget_filter_monotonic (orig : String → ℚ) (cols : List String)
    (cands : List (String → ℚ)) (b1 b2 : ℚ) (hb : b1 ≤ b2) :
    (∀ cf ∈ eligibleUnder orig cols (some b1) cands,
        cf ∈ eligibleUnder orig cols (some b2) cands) ∧
    (∀ w1, winnerOf orig cols cands (some b1) = some w1 →
      winnerOf orig cols cands (some b2) = some w1 ∨
        (∃ w2, winnerOf orig cols cands (some b2) = some w2 ∧
          candCost orig cols w2 ≤ candCost orig cols w1 ∧
          ¬ candCost orig cols w2 ≤ b1)) := by
  constructor
  · intro cf hcf
    rw [eligibleUnder_some_eq] at hcf ⊢
    obtain ⟨hmem, hdec⟩ := List.mem_filter.mp hcf
    exact List.mem_filter.mpr
      ⟨hmem, decide_eq_true (le_trans (of_decide_eq_true hdec) hb)⟩
  · intro w1 hw1
    left
    rw [winnerOf_eq_pickMin, eligibleUnder_some_eq] at hw1 ⊢
    have hw1cost : candCost orig cols w1 ≤ b1 := by
      have hmem := pickMin_mem _ _ _ hw1
      obtain ⟨-, hdec⟩ := List.mem_filter.mp hmem
      exact of_decide_eq_true hdec
    apply pickMin_filter_subset (candCost orig cols) _ _ cands w1 hw1
    · intro x hx
      exact decide_eq_true (le_trans (of_decide_eq_true hx) hb)
    · intro x _ _ hp
      have hxb1 : ¬ candCost orig cols x ≤ b1 := fun hle =>
        hp (decide_eq_true hle)
      exact lt_of_le_of_lt hw1cost (not_le.mp hxb1)

/-- Witness for C7: budgets 20 ≤ 60 over two candidates; the 30-cost winner
is preserved. -/
theorem budget_filter_monotonic_witness :
    ((20:ℚ) ≤ 60) ∧
    ((∀ cf ∈ eligibleUnder (fun _ => (0:ℚ)) ["MonthlyCharges"] (some 20)
          [fun _ => (3:ℚ), fun _ => (45:ℚ)],
        cf ∈ eligibleUnder (fun _ => (0:ℚ)) ["MonthlyCharges"] (some 60)
          [fun _ => (3:ℚ), fun _ => (45:ℚ)]) ∧
    (∀ w1, winnerOf (fun _ => (0:ℚ)) ["MonthlyCharges"]
          [fun _ => (3:ℚ), fun _ => (45:ℚ)] (some 20) = some w1 →
      winnerOf (fun _ => (0:ℚ)) ["MonthlyCharges"]
          [fun _ => (3:ℚ), fun _ => (45:ℚ)] (some 60) = some w1 ∨
        (∃ w2, winnerOf (fun _ => (0:ℚ)) ["MonthlyCharges"]
            [fun _ => (3:ℚ), fun _ => (45:ℚ)] (some 60) = some w2 ∧
          candCost (fun _ => (0:ℚ)) ["MonthlyCharges"] w2 ≤
            candCost (fun _ => (0:ℚ)) ["MonthlyCharges"] w1 ∧
          ¬ candCost (fun _ => (0:ℚ)) ["MonthlyCharges"] w2 ≤ 20))) :=
  ⟨by norm_num,
   budget_filter_monotonic (fun _ => (0:ℚ)) ["MonthlyCharges"]
     [fun _ => (3:ℚ), fun _ => (45:ℚ)] 20 60 (by norm_num)⟩

/-- C8 (spec-modelled): the rule-backed risk score — base 50 plus the
cumulative tenure, monthly-charge and contract adjustments — is clamped to
[1, 99] for every input. -/
theorem rule_score_clamped (tenure monthlyCharge : ℚ) (contract : String) :
    1 ≤ ruleScore tenure monthlyCharge contract ∧
    ruleScore tenure monthlyCharge contract ≤ 99 := by
  have h1 : ∀ s : ℚ, 1 ≤ min 99 (max 1 s) := fun s =>
    le_min (by norm_num) (le_max_left 1 s)
  have h2 : ∀ s : ℚ, min 99 (max 1 s) ≤ 99 := fun s => min_le_left 99 _
  exact ⟨h1 _, h2 _⟩

/-- Witness for C8 at the spec's end-to-end scenario 1 inputs
(tenure 3, charge 95, month-to-month). -/
theorem rule_score_clamped_witness :
    1 ≤ ruleScore 3 95 "Month-to-month" ∧
    ruleScore 3 95 "Month-to-month" ≤ 99 :=
  rule_score_clamped 3 95 "Month-to-month"

/-- C9: the model-backed path is total — `predict_proba` is the wrapped
classifier applied to a cleaned record of the same length whose every cell
has been forced numeric: booleans become 1/0, missing values become 0, and
any string the numeric parse rejects becomes 0. -/
theorem clean_makes_every_record_numeric (parseNum : String → Option ℚ)
    (m : List ℚ → ℚ) (row : List Cell) (s : String)
    (hs : s ≠ "True") (hs2 : s ≠ "False") (hfail : parseNum s = none) :
    wrapperPredictProba parseNum m row = m (cleanRecord parseNum row) ∧
    (cleanRecord parseNum row).length = row.length ∧
    cleanCell parseNum (Cell.bool true) = 1 ∧
    cleanCell parseNum (Cell.bool false) = 0 ∧
    cleanCell parseNum Cell.missing = 0 ∧
    cleanCell parseNum (Cell.str s) = 0 := by
  refine ⟨rfl, List.length_map _ _, rfl, rfl, rfl, ?_⟩
  simp [cleanCell, hs, hs2, hfail]

/-- Witness for C9 on a record with a numeric, a boolean, a malformed string
and a missing cell. -/
theorem clean_makes_every_record_numeric_witness :
    (("abc" : String) ≠ "True") ∧ (("abc" : String) ≠ "False") ∧
    ((fun _ => (none : Option ℚ)) "abc" = none) ∧
    (wrapperPredictProba (fun _ => (none : Option ℚ)) (fun l => l.sum)
        [Cell.num 3, Cell.bool true, Cell.str "abc", Cell.missing] =
      (fun l : List ℚ => l.sum) (cleanRecord (fun _ => (none : Option ℚ))
        [Cell.num 3, Cell.bool true, Cell.str "abc", Cell.missing]) ∧
    (cleanRecord (fun _ => (none : Option ℚ))
        [Cell.num 3, Cell.bool true, Cell.str "abc", Cell.missing]).length =
      ([Cell.num 3, Cell.bool true, Cell.str "abc", Cell.missing] :
        List Cell).length ∧
    cleanCell (fun _ => (none : Option ℚ)) (Cell.bool true) = 1 ∧
    cleanCell (fun _ => (none : Option ℚ)) (Cell.bool false) = 0 ∧
    cleanCell (fun _ => (none : Option ℚ)) Cell.missing = 0 ∧
    cleanCell (fun _ => (none : Option ℚ)) (Cell.str "abc") = 0) :=
  ⟨by decide, by decide, rfl,
   clean_makes_every_record_numeric (fun _ => (none : Option ℚ))
     (fun l => l.sum)
     [Cell.num 3, Cell.bool true, Cell.str "abc", Cell.missing]
     "abc" (by decide) (by decide) rfl⟩

/-- Witness for C3 at a concrete record and candidate. -/
theorem cost_nonneg_zero_iff_within_tolerance_witness :
    0 ≤ (calculate_cost (fun _ => (50:ℚ))
        (fun c => if c = "MonthlyCharges" then (30:ℚ) else 50)
        ["MonthlyCharges", "tenure"]).1 ∧
    ((calculate_cost (fun _ => (50:ℚ))
        (fun c => if c = "MonthlyCharges" then (30:ℚ) else 50)
        ["MonthlyCharges", "tenure"]).1 = 0 ↔
      ∀ col ∈ (["MonthlyCharges", "tenure"] : List String),
        |(fun _ => (50:ℚ)) col -
          (fun c => if c = "MonthlyCharges" then (30:ℚ) else 50) col| ≤
            1/1000) ∧
    calculate_cost (fun _ => (50:ℚ)) (fun _ => (50:ℚ))
      ["MonthlyCharges", "tenure"] = (0, []) :=
  cost_nonneg_zero_iff_within_tolerance (fun _ => (50:ℚ))
    (fun c => if c = "MonthlyCharges" then (30:ℚ) else 50)
    ["MonthlyCharges", "tenure"]

end RetentionAI
